import Mathlib

set_option autoImplicit false

/-!
Shallow embedding of the INI parser (`pkg/parser/parser.go`, final revision).
Strings are modelled as `List Char`; Go maps are modelled as association
lists that remember insertion order (Go map iteration order is unspecified;
where the code iterates a map we fix insertion order).
-/

namespace Ini

abbrev Str := List Char

/-- Models `unicode.IsSpace` restricted to the Latin-1 range, which is what
`strings.TrimSpace` tests per rune. -/
def isSpaceChar (c : Char) : Bool :=
  c == ' ' || c == '\t' || c == '\n' || c == '\x0b' || c == '\x0c' || c == '\r' ||
    c == '\u0085' || c == '\u00A0'

/-- Drop the characters satisfying `f` from both ends of `l`
(the shape of `strings.TrimSpace` / `strings.Trim`). -/
def trimBy (f : Char → Bool) (l : Str) : Str :=
  ((l.dropWhile f).reverse.dropWhile f).reverse

/-- Models `strings.TrimSpace`. -/
def trimSpace (l : Str) : Str := trimBy isSpaceChar l

/-- Models `strings.Trim l cutset`: remove all leading and trailing
characters that occur in `cut`. -/
def trimCut (cut : List Char) (l : Str) : Str := trimBy (fun c => cut.contains c) l

/-- Models `strings.HasPrefix line c` for a one-character prefix `c`. -/
def headIs (c : Char) : Str → Bool
  | [] => false
  | x :: _ => x == c

/-- Models `strings.HasSuffix line c` for a one-character suffix `c`. -/
def lastIs (c : Char) (l : Str) : Bool := headIs c l.reverse

/-- Models `strings.SplitN line sep 2` for a one-character separator:
`none` when the separator is absent (Go returns a single part), otherwise
the parts before and after its first occurrence. -/
def splitFirst (sep : Char) : Str → Option (Str × Str)
  | [] => none
  | c :: rest =>
    if c == sep then some ([], rest)
    else (splitFirst sep rest).map (fun pr => (c :: pr.1, pr.2))

/-- Scanner for `replaceEsc` below. The `Bool` records a pending `'\\'`
whose successor has not been examined yet; this phrasing keeps the
recursion structural. `replaceEsc_two` and `replaceEsc_skip` recover the
two-character-window reading of `strings.ReplaceAll`. -/
def replaceEscAux (c r : Char) : Bool → Str → Str
  | false, [] => []
  | true, [] => ['\\']
  | false, x :: rest =>
    if x = '\\' then replaceEscAux c r true rest else x :: replaceEscAux c r false rest
  | true, y :: rest =>
    if y = c then r :: replaceEscAux c r false rest
    else if y = '\\' then '\\' :: replaceEscAux c r true rest
    else '\\' :: y :: replaceEscAux c r false rest

/-- Models `strings.ReplaceAll value pat repl` for the two-character pattern
`'\\', c` (with `c ≠ '\\'`, as at the three call sites) and one-character
replacement `r`: leftmost, non-overlapping matches. -/
def replaceEsc (c r : Char) (l : Str) : Str := replaceEscAux c r false l


/-- Scanner for `escapeAll` below, with the same pending-backslash flag
device as `replaceEscAux`. -/
def escapeAllAux : Bool → Str → Str
  | false, [] => []
  | true, [] => ['\\']
  | false, x :: rest =>
    if x = '\\' then escapeAllAux true rest else x :: escapeAllAux false rest
  | true, y :: rest =>
    if y = 'n' then '\n' :: escapeAllAux false rest
    else if y = 'r' then '\r' :: escapeAllAux false rest
    else if y = 't' then '\t' :: escapeAllAux false rest
    else if y = '\\' then '\\' :: escapeAllAux true rest
    else '\\' :: y :: escapeAllAux false rest

/-- Spec-side single left-to-right pass replacing each two-character sequence
backslash-`n`, backslash-`r`, backslash-`t` by newline, carriage return and
tab respectively. -/
def escapeAll (l : Str) : Str := escapeAllAux false l




/-! ## Document model (`type Parser struct`) -/

/-- The `Parser` struct: `data` and `globalKeys` are Go maps, modelled as
association lists with at most one binding per key; `sections` keeps the
section names in order. -/
structure Parser where
  data : List (Str × List (Str × Str))
  globalKeys : List (Str × Str)
  sections : List Str
deriving DecidableEq, Repr

/-- Models `NewParser()`: empty maps, empty section list. -/
def NewParser : Parser := ⟨[], [], []⟩

/-- Go map read `m[k]` (comma-ok form). -/
def lookupM {α : Type} : List (Str × α) → Str → Option α
  | [], _ => none
  | (k2, v) :: rest, k => if k2 = k then some v else lookupM rest k

/-- Go map write `m[k] = v`: overwrite in place, or append a new binding. -/
def insertM {α : Type} : List (Str × α) → Str → α → List (Str × α)
  | [], k, v => [(k, v)]
  | (k2, v2) :: rest, k, v =>
    if k2 = k then (k, v) :: rest else (k2, v2) :: insertM rest k v

/-! ## Error messages (`fmt.Errorf` renderings in `parseKeyValue`) -/

def errInvalidKV (n : Nat) (line : Str) : Str :=
  "line ".data ++ (Nat.repr n).data ++ ": invalid key-value pair: ".data ++ line

def errEmptyKey (n : Nat) (line : Str) : Str :=
  "line ".data ++ (Nat.repr n).data ++ ": key cannot be empty: ".data ++ line

def errEmptyValue (n : Nat) (line : Str) : Str :=
  "line ".data ++ (Nat.repr n).data ++ ": value cannot be empty: ".data ++ line

/-! ## The parser state machine -/

/-- Models `createSectionIfNotExist`: if the section is not yet a key of `data`,
give it an empty key map and append its name to `sections`. -/
def createSectionIfNotExist (p : Parser) (sect : Str) : Parser :=
  match lookupM p.data sect with
  | some _ => p
  | none => { p with data := insertM p.data sect [], sections := p.sections ++ [sect] }

/-- The value transformation of `parseKeyValue`: the three `ReplaceAll`
calls followed by `strings.Trim(value, "\x22")`. -/
def escapeValue (v : Str) : Str :=
  trimCut ['"'] (replaceEsc 't' '\t' (replaceEsc 'r' '\r' (replaceEsc 'n' '\n' v)))

/-- Models `parseKeyValue(line, lineNumber, currentSection)`. The receiver is
mutated only on success, so the result is `Except` of message or new state.
(When `currentSection` is absent from `data` and nonempty, Go would panic on
the nil-map write; `parse` never reaches that state, and we model the write
through the section's current, possibly absent, key map.) -/
def parseKeyValue (p : Parser) (line : Str) (lineNumber : Nat) (currentSection : Str) :
    Except Str Parser :=
  match splitFirst '=' line with
  | none => .error (errInvalidKV lineNumber line)
  | some (lhs, rhs) =>
    let key := trimSpace lhs
    let value := trimSpace rhs
    if key = [] then .error (errEmptyKey lineNumber line)
    else if value = [] then .error (errEmptyValue lineNumber line)
    else
      let value2 := escapeValue value
      if currentSection = [] then
        .ok { p with globalKeys := insertM p.globalKeys key value2 }
      else
        let sectionMap := insertM ((lookupM p.data currentSection).getD []) key value2
        .ok { p with data := insertM p.data currentSection sectionMap }

/-- The skip test of the scan loop: blank line or `;`/`#` comment. -/
def isSkipLine (line : Str) : Bool :=
  line.isEmpty || headIs ';' line || headIs '#' line

/-- The header test of the scan loop: first character `[`, last `]`. -/
def isHeaderLine (line : Str) : Bool := headIs '[' line && lastIs ']' line

/-- The cutset of `strings.Trim(line, "[]")`. -/
def bracketCut : List Char := ['[', ']']

/-- The scan loop of `parse`, from a given line counter and current
section. Go mutates the receiver and returns an error; we return the state
at exit together with the error, if any. (`scanner.Err()` is `nil` for an
in-memory reader, so exhaustion returns no error.) -/
def parseFrom (p : Parser) (lineNumber : Nat) (currentSection : Str) :
    List Str → Parser × Option Str
  | [] => (p, none)
  | rawLine :: rest =>
    let line := trimSpace rawLine
    if isSkipLine line then parseFrom p (lineNumber + 1) currentSection rest
    else if isHeaderLine line then
      let sect := trimCut bracketCut line
      parseFrom (createSectionIfNotExist p sect) (lineNumber + 1) sect rest
    else
      match parseKeyValue p line (lineNumber + 1) currentSection with
      | .error e => (p, some e)
      | .ok p2 => parseFrom p2 (lineNumber + 1) currentSection rest

/-- Models `parse(scanner)`: line counter starts at 0 (incremented before each
line is handled), current section starts empty. -/
def parse (p : Parser) (lines : List Str) : Parser × Option Str :=
  parseFrom p 0 [] lines

/-! ## Line splitting (`bufio.Scanner` with `ScanLines`) -/

/-- Models `dropCR`: drop one terminal carriage return, as `bufio.ScanLines` does. -/
def dropCR (l : Str) : Str :=
  match l.reverse with
  | '\r' :: rest => rest.reverse
  | _ => l

/-- Accumulating scanner for `splitLines`; `cur` holds the current line
reversed. A final newline does not open an empty last token. -/
def splitLinesAux (cur : Str) : Str → List Str
  | [] => [dropCR cur.reverse]
  | '\n' :: [] => [dropCR cur.reverse]
  | '\n' :: c :: rest => dropCR cur.reverse :: splitLinesAux [] (c :: rest)
  | c :: rest => splitLinesAux (c :: cur) rest

/-- The token stream `bufio.NewScanner` yields on an in-memory string:
split at newlines, drop a carriage return before each newline, no empty
final token after a trailing newline, no tokens at all for empty input. -/
def splitLines : Str → List Str
  | [] => []
  | c :: rest => splitLinesAux [] (c :: rest)


/-! ## Entry points and accessors -/

/-- Models `LoadFromString(text)`: run `parse` over the split lines against the
existing document, wrapping any error with call-site context. -/
def LoadFromString (p : Parser) (text : Str) : Parser × Option Str :=
  match parse p (splitLines text) with
  | (p2, some e) => (p2, some ("failed to parse input string: ".data ++ e))
  | (p2, none) => (p2, none)

/-- Models `GetSectionNames()`. -/
def Parser.GetSectionNames (p : Parser) : List Str := p.sections

/-- Models `GetSections()`. -/
def Parser.GetSections (p : Parser) : List (Str × List (Str × Str)) := p.data

/-- Models `GetGlobalKeys()`. -/
def Parser.GetGlobalKeys (p : Parser) : List (Str × Str) := p.globalKeys

/-- Models `Get(section, key)`: note that the returned flag is the comma-ok result
of the *section* lookup; a missing key in an existing section yields the
zero value `""` with flag `true`. -/
def Parser.Get (p : Parser) (sect key : Str) : Str × Bool :=
  match lookupM p.data sect with
  | some sectionData => ((lookupM sectionData key).getD [], true)
  | none => ([], false)

/-- Models `Set(section, key, value)`: create the section map if absent, write the
pair, and append the section name to `sections` unconditionally. -/
def Parser.Set (p : Parser) (sect key value : Str) : Parser :=
  let data0 := match lookupM p.data sect with
    | some _ => p.data
    | none => insertM p.data sect []
  { p with
    data := insertM data0 sect (insertM ((lookupM data0 sect).getD []) key value),
    sections := p.sections ++ [sect] }

/-- Lexicographic comparison on `Str`, as `sort.Strings` uses (`<` on Go
strings is byte-lexicographic, which agrees with code-point order). -/
def ltStr : Str → Str → Bool
  | [], [] => false
  | [], _ :: _ => true
  | _ :: _, [] => false
  | a :: as, b :: bs => if a < b then true else if b < a then false else ltStr as bs

/-- Insert into a sorted list (the sorting step of `sort.Strings`). -/
def insertSorted (x : Str) : List Str → List Str
  | [] => [x]
  | y :: ys => if ltStr x y then x :: y :: ys else y :: insertSorted x ys

/-- Models `sort.Strings`: a sorted rearrangement of the key list. -/
def sortStrings (l : List Str) : List Str := l.foldr insertSorted []

/-- Models `ToString()`: global keys first (map iteration order is unspecified in
Go; we fix insertion order), then each section of `sections` in order, its
header line followed by its keys sorted ascending, each `key=value` plus a
newline, accumulated in a string builder (`foldl` over appends). -/
def Parser.ToString (p : Parser) : Str :=
  let globalPart := p.globalKeys.foldl
    (fun acc kv => acc ++ kv.1 ++ '=' :: kv.2 ++ ['\n']) []
  p.sections.foldl (fun acc sectionName =>
    let sectionData := (lookupM p.data sectionName).getD []
    let sortedKeys := sortStrings (sectionData.map Prod.fst)
    sortedKeys.foldl
      (fun acc2 key => acc2 ++ key ++ '=' :: (lookupM sectionData key).getD [] ++ ['\n'])
      (acc ++ '[' :: sectionName ++ [']', '\n'])) globalPart



/-! ## Derived notions used by the verification -/

/-- The destination of a successful assignment (spec 4.2 step 4): the global
namespace when no section is current, the current section's key map
otherwise. -/
def writeKV (p : Parser) (cs key value : Str) : Parser :=
  if cs = [] then { p with globalKeys := insertM p.globalKeys key value }
  else
    let sectionMap := insertM ((lookupM p.data cs).getD []) key value
    { p with data := insertM p.data cs sectionMap }

/-- The spec-side reading of header-name extraction taken literally: strip
all leading `[` characters and then all trailing `]` characters (only those
two specific shapes, not the whole bracket cutset at both ends). -/
def specHeaderName (l : Str) : Str :=
  ((l.dropWhile (fun c => c == '[')).reverse.dropWhile (fun c => c == ']')).reverse

/-- An assignment line `parseKeyValue` accepts: an `=` is present and both
trimmed sides are nonempty. -/
def assignOk (line : Str) : Bool :=
  match splitFirst '=' line with
  | none => false
  | some (lhs, rhs) => !(trimSpace lhs).isEmpty && !(trimSpace rhs).isEmpty

/-- A raw line the scan loop processes without aborting. -/
def lineOk (rawLine : Str) : Bool :=
  let line := trimSpace rawLine
  isSkipLine line || isHeaderLine line || assignOk line

/-- The section names recorded by the headers of the input, in source
order, cut off at the first aborting line. -/
def headerTrace : List Str → List Str
  | [] => []
  | rawLine :: rest =>
    let line := trimSpace rawLine
    if isSkipLine line then headerTrace rest
    else if isHeaderLine line then trimCut bracketCut line :: headerTrace rest
    else if assignOk line then headerTrace rest
    else []

/-- Append a name only when it is new (first-appearance collection). -/
def appendIfNew (acc : List Str) (s : Str) : List Str :=
  if s ∈ acc then acc else acc ++ [s]

def appendNewAll (acc : List Str) (names : List Str) : List Str :=
  names.foldl appendIfNew acc

/-- The keys of the `data` map, in insertion order. -/
def dataKeys (p : Parser) : List Str := p.data.map Prod.fst

/-- Structural invariant of documents populated only by parsing: the
ordered section list has no duplicates and coincides with the key set of
`data` (in insertion order). -/
def Inv (p : Parser) : Prop := p.sections.Nodup ∧ p.sections = dataKeys p

instance (p : Parser) : Decidable (Inv p) := by unfold Inv; infer_instance

/-- One `key=value` output line of the serializer. -/
def renderEntry (kv : Str × Str) : Str := kv.1 ++ '=' :: kv.2 ++ ['\n']

/-- The spec-side rendering: all global entries first, then for each name
of `sections` in order a `[name]` header followed by that section's
entries with keys sorted ascending. -/
def specSerialize (p : Parser) : Str :=
  (p.globalKeys.map renderEntry).flatten ++
  (p.sections.map (fun sectionName =>
    let sectionData := (lookupM p.data sectionName).getD []
    '[' :: sectionName ++ [']', '\n'] ++
    ((sortStrings (sectionData.map Prod.fst)).map
      (fun key => key ++ '=' :: (lookupM sectionData key).getD [] ++ ['\n'])).flatten)).flatten


/-! ## Lemmas about the escape scanners -/

theorem replaceEsc_nil (c r : Char) : replaceEsc c r [] = [] := rfl

theorem replaceEsc_cons_ne (c r x : Char) (l : Str) (hx : x ≠ '\\') :
    replaceEsc c r (x :: l) = x :: replaceEsc c r l := by
  simp [replaceEsc, replaceEscAux, hx]

theorem replaceEsc_two (c r : Char) (l : Str) :
    replaceEsc c r ('\\' :: c :: l) = r :: replaceEsc c r l := by
  simp [replaceEsc, replaceEscAux]

theorem replaceEsc_skip (c r y : Char) (l : Str) (hy : y ≠ c) :
    replaceEsc c r ('\\' :: y :: l) = '\\' :: replaceEsc c r (y :: l) := by
  by_cases hb : y = '\\'
  · subst hb; simp [replaceEsc, replaceEscAux, hy]
  · simp [replaceEsc, replaceEscAux, hy, hb]

theorem replaceEsc_single (c r : Char) : replaceEsc c r ['\\'] = ['\\'] := by
  simp [replaceEsc, replaceEscAux]

example : replaceEsc 'n' '\n' ['a', '\\', 'n', 'b'] = ['a', '\n', 'b'] := by decide
example : replaceEsc 'n' '\n' ['\\', '\\', 'n'] = ['\\', '\n'] := by decide

theorem escapeAll_cons_ne (x : Char) (l : Str) (hx : x ≠ '\\') :
    escapeAll (x :: l) = x :: escapeAll l := by
  simp [escapeAll, escapeAllAux, hx]

theorem escapeAll_n (l : Str) : escapeAll ('\\' :: 'n' :: l) = '\n' :: escapeAll l := by
  simp [escapeAll, escapeAllAux]

theorem escapeAll_r (l : Str) : escapeAll ('\\' :: 'r' :: l) = '\r' :: escapeAll l := by
  simp [escapeAll, escapeAllAux]

theorem escapeAll_t (l : Str) : escapeAll ('\\' :: 't' :: l) = '\t' :: escapeAll l := by
  simp [escapeAll, escapeAllAux]

theorem escapeAll_other (y : Char) (l : Str)
    (hn : y ≠ 'n') (hr : y ≠ 'r') (ht : y ≠ 't') :
    escapeAll ('\\' :: y :: l) = '\\' :: escapeAll (y :: l) := by
  by_cases hb : y = '\\' <;> simp [escapeAll, escapeAllAux, hn, hr, ht, hb]

theorem escapeAll_single : escapeAll ['\\'] = ['\\'] := by
  simp [escapeAll, escapeAllAux]

example : escapeAll ['a', '\\', 't', 'b'] = ['a', '\t', 'b'] := by decide

example : splitLines "a\nb".data = ["a".data, "b".data] := by decide
example : splitLines "a\r\nb\n".data = ["a".data, "b".data] := by decide
example : splitLines "\n".data = [[]] := by decide
example : splitLines [] = [] := by decide

example :
    (parse NewParser (splitLines "[section1]\nkey1=value1\nkey2=value2\n".data)).2 =
      none := by decide
example :
    (parse NewParser (splitLines "[section1]\nkey1=value1\n".data)).1.Get
      "section1".data "key1".data = ("value1".data, true) := by decide
example :
    (parse NewParser (splitLines "k=\"a\\nb\"\n".data)).1.GetGlobalKeys =
      [("k".data, "a\nb".data)] := by decide

/-- Pushing a pass over a leading `'\\'` whose successor cannot start a match. -/
theorem replaceEsc_backslash_cons (c r : Char) (X : Str) (h : X.head? ≠ some c) :
    replaceEsc c r ('\\' :: X) = '\\' :: replaceEsc c r X := by
  cases X with
  | nil => simp [replaceEsc_single, replaceEsc_nil]
  | cons y X2 =>
    have hy : y ≠ c := by simpa using h
    exact replaceEsc_skip c r y X2 hy

/-- A pass either preserves the head character or replaces it by `r`. -/
theorem replaceEsc_head (c r : Char) (X : Str) :
    (replaceEsc c r X).head? = X.head? ∨ (replaceEsc c r X).head? = some r := by
  cases X with
  | nil => left; rfl
  | cons x X2 =>
    by_cases hx : x = '\\'
    · subst hx
      cases X2 with
      | nil => left; simp [replaceEsc_single]
      | cons y X3 =>
        by_cases hy : y = c
        · subst hy; right; simp [replaceEsc_two]
        · left; simp [replaceEsc_skip c r y X3 hy]
    · left; simp [replaceEsc_cons_ne c r x X2 hx]

/-- The three sequential `strings.ReplaceAll` passes of the source equal a
single left-to-right pass over the original text. -/
theorem seq_replace_eq_escapeAll (l : Str) :
    replaceEsc 't' '\t' (replaceEsc 'r' '\r' (replaceEsc 'n' '\n' l)) = escapeAll l := by
  suffices h : ∀ N (l : Str), l.length ≤ N →
      replaceEsc 't' '\t' (replaceEsc 'r' '\r' (replaceEsc 'n' '\n' l)) = escapeAll l by
    exact h l.length l le_rfl
  intro N
  induction N with
  | zero =>
    intro l hl
    rw [Nat.le_zero, List.length_eq_zero] at hl
    subst hl; rfl
  | succ k ih =>
    intro l hl
    rcases l with _ | ⟨x, rest⟩
    · rfl
    by_cases hx : x = '\\'
    · subst hx
      rcases rest with _ | ⟨y, r2⟩
      · simp [replaceEsc_single, escapeAll_single]
      · have hr2 : r2.length ≤ k := by simp at hl; omega
        by_cases hyn : y = 'n'
        · subst hyn
          rw [replaceEsc_two, replaceEsc_cons_ne 'r' '\r' '\n' _ (by decide),
            replaceEsc_cons_ne 't' '\t' '\n' _ (by decide), escapeAll_n, ih r2 hr2]
        · by_cases hyr : y = 'r'
          · subst hyr
            rw [replaceEsc_skip 'n' '\n' 'r' r2 (by decide),
              replaceEsc_cons_ne 'n' '\n' 'r' r2 (by decide), replaceEsc_two,
              replaceEsc_cons_ne 't' '\t' '\r' _ (by decide), escapeAll_r, ih r2 hr2]
          · by_cases hyt : y = 't'
            · subst hyt
              rw [replaceEsc_skip 'n' '\n' 't' r2 (by decide),
                replaceEsc_cons_ne 'n' '\n' 't' r2 (by decide),
                replaceEsc_skip 'r' '\r' 't' _ (by decide),
                replaceEsc_cons_ne 'r' '\r' 't' _ (by decide), replaceEsc_two,
                escapeAll_t, ih r2 hr2]
            · by_cases hyb : y = '\\'
              · subst hyb
                have hlen : ('\\' :: r2).length ≤ k := by simp at hl ⊢; omega
                have h1 : replaceEsc 'n' '\n' ('\\' :: '\\' :: r2) =
                    '\\' :: replaceEsc 'n' '\n' ('\\' :: r2) :=
                  replaceEsc_skip 'n' '\n' '\\' r2 (by decide)
                have hhead1 : (replaceEsc 'n' '\n' ('\\' :: r2)).head? ≠ some 'r' := by
                  rcases replaceEsc_head 'n' '\n' ('\\' :: r2) with h | h <;>
                    rw [h] <;> simp
                have h2 : replaceEsc 'r' '\r' ('\\' :: replaceEsc 'n' '\n' ('\\' :: r2)) =
                    '\\' :: replaceEsc 'r' '\r' (replaceEsc 'n' '\n' ('\\' :: r2)) :=
                  replaceEsc_backslash_cons 'r' '\r' _ hhead1
                have hhead2 :
                    (replaceEsc 'r' '\r' (replaceEsc 'n' '\n' ('\\' :: r2))).head? ≠
                      some 't' := by
                  rcases replaceEsc_head 'r' '\r' (replaceEsc 'n' '\n' ('\\' :: r2)) with
                    h | h
                  · rw [h]
                    rcases replaceEsc_head 'n' '\n' ('\\' :: r2) with h3 | h3 <;>
                      rw [h3] <;> simp
                  · rw [h]; simp
                rw [h1, h2, replaceEsc_backslash_cons 't' '\t' _ hhead2,
                  ih ('\\' :: r2) hlen, escapeAll_other '\\' r2 (by decide) (by decide)
                    (by decide)]
              · rw [replaceEsc_skip 'n' '\n' y r2 hyn,
                  replaceEsc_cons_ne 'n' '\n' y r2 hyb,
                  replaceEsc_skip 'r' '\r' y _ hyr,
                  replaceEsc_cons_ne 'r' '\r' y _ hyb,
                  replaceEsc_skip 't' '\t' y _ hyt,
                  replaceEsc_cons_ne 't' '\t' y _ hyb,
                  escapeAll_other y r2 hyn hyr hyt, escapeAll_cons_ne y r2 hyb,
                  ih r2 hr2]
    · have hrest : rest.length ≤ k := by simp at hl; omega
      rw [replaceEsc_cons_ne 'n' '\n' x rest hx, replaceEsc_cons_ne 'r' '\r' x _ hx,
        replaceEsc_cons_ne 't' '\t' x _ hx, escapeAll_cons_ne x rest hx, ih rest hrest]
/-! ## Lemmas about the association-list maps -/

theorem lookupM_insertM_self {α : Type} (m : List (Str × α)) (k : Str) (v : α) :
    lookupM (insertM m k v) k = some v := by
  induction m with
  | nil => simp [insertM, lookupM]
  | cons kv rest ih =>
    obtain ⟨k2, v2⟩ := kv
    by_cases h : k2 = k
    · subst h; simp [insertM, lookupM]
    · simp [insertM, lookupM, h, ih]

theorem lookupM_insertM_ne {α : Type} (m : List (Str × α)) (k k2 : Str) (v : α)
    (h : k2 ≠ k) : lookupM (insertM m k v) k2 = lookupM m k2 := by
  have h2 : k ≠ k2 := Ne.symm h
  induction m with
  | nil => simp [insertM, lookupM, h2]
  | cons kv rest ih =>
    obtain ⟨k3, v3⟩ := kv
    by_cases h3 : k3 = k
    · subst h3
      simp [insertM, lookupM, h2]
    · simp only [insertM, if_neg h3, lookupM]
      by_cases h4 : k3 = k2 <;> simp [h4, ih]

theorem lookupM_eq_none_iff {α : Type} (m : List (Str × α)) (k : Str) :
    lookupM m k = none ↔ k ∉ m.map Prod.fst := by
  induction m with
  | nil => simp [lookupM]
  | cons kv rest ih =>
    obtain ⟨k2, v2⟩ := kv
    by_cases h : k2 = k
    · subst h
      simp only [lookupM, if_pos rfl, List.map_cons, List.mem_cons]
      exact ⟨fun hc => Option.noConfusion hc, fun hc => absurd (Or.inl trivial) hc⟩
    · simp only [lookupM, if_neg h, List.map_cons, List.mem_cons, not_or]
      rw [ih]
      exact ⟨fun hm => ⟨fun hc => h hc.symm, hm⟩, fun hm => hm.2⟩

theorem lookupM_isSome_iff {α : Type} (m : List (Str × α)) (k : Str) :
    (lookupM m k).isSome = true ↔ k ∈ m.map Prod.fst := by
  induction m with
  | nil => simp [lookupM]
  | cons kv rest ih =>
    obtain ⟨k2, v2⟩ := kv
    by_cases h : k2 = k
    · subst h
      simp only [lookupM, if_pos rfl, Option.isSome_some, List.map_cons, List.mem_cons]
      exact ⟨fun _ => Or.inl trivial, fun _ => rfl⟩
    · simp only [lookupM, if_neg h, List.map_cons, List.mem_cons]
      rw [ih]
      exact ⟨fun hm => Or.inr hm, fun hm => hm.resolve_left (fun hc => h hc.symm)⟩

theorem insertM_keys_mem {α : Type} (m : List (Str × α)) (k : Str) (v : α)
    (h : k ∈ m.map Prod.fst) : (insertM m k v).map Prod.fst = m.map Prod.fst := by
  induction m with
  | nil =>
    simp only [List.map_nil] at h
    exact absurd h (List.not_mem_nil k)
  | cons kv rest ih =>
    obtain ⟨k2, v2⟩ := kv
    by_cases h2 : k2 = k
    · subst h2; simp [insertM]
    · have hk : k ∈ rest.map Prod.fst := by
        simp only [List.map_cons, List.mem_cons] at h
        rcases h with h | h
        · exact absurd h.symm h2
        · exact h
      simp [insertM, h2, ih hk]

theorem insertM_keys_not_mem {α : Type} (m : List (Str × α)) (k : Str) (v : α)
    (h : k ∉ m.map Prod.fst) :
    (insertM m k v).map Prod.fst = m.map Prod.fst ++ [k] := by
  induction m with
  | nil => simp [insertM]
  | cons kv rest ih =>
    obtain ⟨k2, v2⟩ := kv
    simp only [List.map_cons, List.mem_cons] at h
    push_neg at h
    have h2 : k2 ≠ k := Ne.symm h.1
    simp only [insertM, if_neg h2, List.map_cons, ih h.2, List.cons_append]

/-! ## Step lemmas for the scan loop -/

theorem isHeader_not_skip (t : Str) (h : isHeaderLine t = true) : isSkipLine t = false := by
  cases t with
  | nil => simp [isHeaderLine, headIs] at h
  | cons c t2 =>
    simp only [isHeaderLine, headIs, Bool.and_eq_true, beq_iff_eq] at h
    obtain ⟨h1, -⟩ := h
    subst h1
    rfl

theorem parseFrom_skip (p : Parser) (n : Nat) (cs rawLine : Str) (rest : List Str)
    (h : isSkipLine (trimSpace rawLine) = true) :
    parseFrom p n cs (rawLine :: rest) = parseFrom p (n + 1) cs rest := by
  simp [parseFrom, h]

theorem parseFrom_header (p : Parser) (n : Nat) (cs rawLine : Str) (rest : List Str)
    (h : isHeaderLine (trimSpace rawLine) = true) :
    parseFrom p n cs (rawLine :: rest) =
      parseFrom (createSectionIfNotExist p (trimCut bracketCut (trimSpace rawLine)))
        (n + 1) (trimCut bracketCut (trimSpace rawLine)) rest := by
  simp [parseFrom, isHeader_not_skip _ h, h]

theorem parseFrom_assign (p : Parser) (n : Nat) (cs rawLine : Str) (rest : List Str)
    (h1 : isSkipLine (trimSpace rawLine) = false)
    (h2 : isHeaderLine (trimSpace rawLine) = false) :
    parseFrom p n cs (rawLine :: rest) =
      match parseKeyValue p (trimSpace rawLine) (n + 1) cs with
      | .error e => (p, some e)
      | .ok p2 => parseFrom p2 (n + 1) cs rest := by
  simp [parseFrom, h1, h2]

/-! ## Lemmas about `parseKeyValue` -/

theorem parseKeyValue_ok (p : Parser) (line : Str) (n : Nat) (cs lhs rhs : Str)
    (hsplit : splitFirst '=' line = some (lhs, rhs))
    (hk : trimSpace lhs ≠ []) (hv : trimSpace rhs ≠ []) :
    parseKeyValue p line n cs =
      .ok (writeKV p cs (trimSpace lhs) (escapeValue (trimSpace rhs))) := by
  by_cases hcs : cs = [] <;> simp [parseKeyValue, hsplit, hk, hv, writeKV, hcs]

theorem parseKeyValue_error_no_eq (p : Parser) (line : Str) (n : Nat) (cs : Str)
    (hsplit : splitFirst '=' line = none) :
    parseKeyValue p line n cs = .error (errInvalidKV n line) := by
  simp [parseKeyValue, hsplit]

theorem parseKeyValue_error_empty_key (p : Parser) (line : Str) (n : Nat) (cs lhs rhs : Str)
    (hsplit : splitFirst '=' line = some (lhs, rhs)) (hk : trimSpace lhs = []) :
    parseKeyValue p line n cs = .error (errEmptyKey n line) := by
  simp [parseKeyValue, hsplit, hk]

theorem parseKeyValue_error_empty_value (p : Parser) (line : Str) (n : Nat)
    (cs lhs rhs : Str) (hsplit : splitFirst '=' line = some (lhs, rhs))
    (hk : trimSpace lhs ≠ []) (hv : trimSpace rhs = []) :
    parseKeyValue p line n cs = .error (errEmptyValue n line) := by
  simp [parseKeyValue, hsplit, hk, hv]

theorem assignOk_iff (line : Str) :
    assignOk line = true ↔ ∃ lhs rhs, splitFirst '=' line = some (lhs, rhs) ∧
      trimSpace lhs ≠ [] ∧ trimSpace rhs ≠ [] := by
  unfold assignOk
  cases hm : splitFirst '=' line with
  | none => simp
  | some pr =>
    obtain ⟨lhs, rhs⟩ := pr
    simp only [List.isEmpty_iff, Bool.and_eq_true, Bool.not_eq_true', Option.some.injEq,
      Prod.mk.injEq, Bool.not_eq_true]
    constructor
    · rintro ⟨a, b⟩
      exact ⟨lhs, rhs, ⟨rfl, rfl⟩, by simpa using a, by simpa using b⟩
    · rintro ⟨l, r, ⟨rfl, rfl⟩, a, b⟩
      exact ⟨by simpa using a, by simpa using b⟩

theorem parseKeyValue_isError (p : Parser) (line : Str) (n : Nat) (cs : Str)
    (h : assignOk line = false) :
    ∃ e, parseKeyValue p line n cs = .error e := by
  cases hm : splitFirst '=' line with
  | none => exact ⟨_, parseKeyValue_error_no_eq p line n cs hm⟩
  | some pr =>
    obtain ⟨lhs, rhs⟩ := pr
    unfold assignOk at h
    rw [hm] at h
    simp only [Bool.and_eq_false_iff, Bool.not_eq_false', List.isEmpty_iff] at h
    by_cases hk : trimSpace lhs = []
    · exact ⟨_, parseKeyValue_error_empty_key p line n cs lhs rhs hm hk⟩
    · have hv : trimSpace rhs = [] := by
        rcases h with h | h
        · exact absurd h hk
        · exact h
      exact ⟨_, parseKeyValue_error_empty_value p line n cs lhs rhs hm hk hv⟩

/-! ## Fail-fast prefix behaviour of the scan loop -/

theorem parseFrom_truncates (lines : List Str) :
    ∀ (p : Parser) (n : Nat) (cs : Str),
      ∃ k, (parseFrom p n cs (List.take k lines)).2 = none ∧
        (parseFrom p n cs lines).1 = (parseFrom p n cs (List.take k lines)).1 := by
  induction lines with
  | nil => intro p n cs; exact ⟨0, rfl, rfl⟩
  | cons l rest ih =>
    intro p n cs
    by_cases hskip : isSkipLine (trimSpace l) = true
    · obtain ⟨k, hk1, hk2⟩ := ih p (n + 1) cs
      refine ⟨k + 1, ?_, ?_⟩
      · simpa [List.take_succ_cons, parseFrom_skip _ _ _ _ _ hskip] using hk1
      · simpa [List.take_succ_cons, parseFrom_skip _ _ _ _ _ hskip] using hk2
    · have hskip2 : isSkipLine (trimSpace l) = false := by
        simpa using hskip
      by_cases hhead : isHeaderLine (trimSpace l) = true
      · obtain ⟨k, hk1, hk2⟩ :=
          ih (createSectionIfNotExist p (trimCut bracketCut (trimSpace l))) (n + 1)
            (trimCut bracketCut (trimSpace l))
        refine ⟨k + 1, ?_, ?_⟩
        · simpa [List.take_succ_cons, parseFrom_header _ _ _ _ _ hhead] using hk1
        · simpa [List.take_succ_cons, parseFrom_header _ _ _ _ _ hhead] using hk2
      · have hhead2 : isHeaderLine (trimSpace l) = false := by
          simpa using hhead
        by_cases hao : assignOk (trimSpace l) = true
        · obtain ⟨lhs, rhs, hsplit, hk, hv⟩ := (assignOk_iff (trimSpace l)).mp hao
          have hpk := parseKeyValue_ok p (trimSpace l) (n + 1) cs lhs rhs hsplit hk hv
          obtain ⟨k, hk1, hk2⟩ :=
            ih (writeKV p cs (trimSpace lhs) (escapeValue (trimSpace rhs))) (n + 1) cs
          refine ⟨k + 1, ?_, ?_⟩
          · simpa [List.take_succ_cons, parseFrom_assign _ _ _ _ _ hskip2 hhead2, hpk]
              using hk1
          · simpa [List.take_succ_cons, parseFrom_assign _ _ _ _ _ hskip2 hhead2, hpk]
              using hk2
        · have hao2 : assignOk (trimSpace l) = false := by simpa using hao
          obtain ⟨e, he⟩ := parseKeyValue_isError p (trimSpace l) (n + 1) cs hao2
          refine ⟨0, rfl, ?_⟩
          rw [parseFrom_assign _ _ _ _ _ hskip2 hhead2, he]
          rfl

theorem loadFromString_fst (p : Parser) (text : Str) :
    (LoadFromString p text).1 = (parse p (splitLines text)).1 := by
  unfold LoadFromString
  rcases hp : parse p (splitLines text) with ⟨p2, e⟩
  cases e <;> simp [hp]

/-! ## Claim theorems -/

/-- C1: the claim states that `Get(section, key)` returns `found = false`
whenever the section or the key is missing. The code disagrees: the flag it
returns is the comma-ok result of the section lookup, so a missing key in
an existing section yields `("", true)`. This theorem evaluates the code on
such an input (first conjunct) and on a missing section (second conjunct,
where the claim holds). -/
theorem get_missing_key_reports_found_true :
    (parse NewParser ["[section1]".data, "key1=value1".data]).1.Get "section1".data
      "key3".data = ([], true) ∧
    NewParser.Get "missing".data "k".data = ([], false) := by decide

/-- C2 (counterexample): a parse pass that fails is not all-or-nothing; on
`"a=1\nxyz"` the failing `LoadFromString` call leaves the key `a` from the
successfully processed first line in the document. -/
theorem load_failure_mutates_document :
    ((LoadFromString NewParser "a=1\nxyz".data).2).isSome = true ∧
    ¬ (LoadFromString NewParser "a=1\nxyz".data).1 = NewParser := by decide

/-- C2 (amended): a failing parse pass is fail-fast rather than atomic: the
document ends in the state produced by cleanly parsing some prefix of the
input lines (everything before the failing line), not necessarily in its
pre-call state. -/
theorem load_failure_keeps_processed_lines :
    ∀ (p : Parser) (text : Str),
      ∃ k, (parse p (List.take k (splitLines text))).2 = none ∧
        (LoadFromString p text).1 = (parse p (List.take k (splitLines text))).1 := by
  intro p text
  obtain ⟨k, h1, h2⟩ := parseFrom_truncates (splitLines text) p 0 []
  exact ⟨k, h1, (loadFromString_fst p text).trans h2⟩

/-- C3: every `Set(section, key, value)` call appends the section name to
the ordered section list even when the section already exists, so `n`
repeated `Set` calls against the same section leave `n` copies of its name
in `GetSectionNames()`. -/
theorem set_appends_section_name_unconditionally :
    (∀ (p : Parser) (sect key value : Str),
      (Parser.Set p sect key value).GetSectionNames = p.GetSectionNames ++ [sect]) ∧
    (∀ (p : Parser) (sect key value : Str) (n : Nat),
      (((fun q => Parser.Set q sect key value)^[n]) p).GetSectionNames.count sect =
        p.GetSectionNames.count sect + n) := by
  constructor
  · intro p sect key value; rfl
  · intro p sect key value n
    induction n with
    | zero => simp
    | succ m ih =>
      rw [Function.iterate_succ_apply']
      have hs : (Parser.Set (((fun q => Parser.Set q sect key value)^[m]) p) sect key
          value).GetSectionNames =
          (((fun q => Parser.Set q sect key value)^[m]) p).GetSectionNames ++ [sect] := rfl
      rw [hs, List.count_append, ih]
      have h1 : List.count sect [sect] = 1 := by simp
      omega

/-- C5: on every accepted assignment line the stored value is the trimmed
right-hand side with every `\n`, `\r`, `\t` two-character sequence replaced
by the corresponding control character (a single left-to-right pass, shown
equal to the code's three sequential `ReplaceAll` calls) and then all
leading and trailing double quotes stripped; the stored key is the trimmed
left-hand side with no transformation, and `writeKV` shows the value
transformation touches neither keys nor section routing. -/
theorem assignment_escapes_and_unquotes_value_only :
    ∀ (p : Parser) (line : Str) (n : Nat) (cs lhs rhs : Str),
      splitFirst '=' line = some (lhs, rhs) →
      trimSpace lhs ≠ [] → trimSpace rhs ≠ [] →
      parseKeyValue p line n cs =
        .ok (writeKV p cs (trimSpace lhs) (trimCut ['"'] (escapeAll (trimSpace rhs)))) := by
  intro p line n cs lhs rhs hsplit hk hv
  rw [parseKeyValue_ok p line n cs lhs rhs hsplit hk hv]
  unfold escapeValue
  rw [seq_replace_eq_escapeAll]

/-- C5 (witness): the assignment `k="a\nb"` stores under key `k` the value
obtained by escaping and then unquoting `"a\nb"`. -/
theorem assignment_escapes_witness :
    parseKeyValue NewParser "k=\"a\\nb\"".data 1 [] =
      .ok (writeKV NewParser [] (trimSpace "k".data)
        (trimCut ['"'] (escapeAll (trimSpace "\"a\\nb\"".data)))) :=
  assignment_escapes_and_unquotes_value_only NewParser "k=\"a\\nb\"".data 1 []
    "k".data "\"a\\nb\"".data (by decide) (by decide) (by decide)

/-- C6 (counterexample): the claim reads the recorded section name as the
header line with all leading `[` and all trailing `]` stripped. On the
header line `[]x]` that reading gives `]x`, but the parser records `x`,
because `strings.Trim(line, "[]")` removes every leading or trailing
character belonging to the cutset, brackets of either shape. -/
theorem header_name_spec_reading_fails :
    (parse NewParser ["[]x]".data]).1.GetSectionNames = ["x".data] ∧
    specHeaderName (trimSpace "[]x]".data) = "]x".data ∧
    ¬ ("x".data : Str) = "]x".data := by decide

/-- C6 (amended): for every trimmed line whose first character is `[` and
last character is `]`, the recorded section name is the line with all
leading and trailing characters drawn from the cutset `[]` stripped (either
bracket shape, at both ends, not just one pair); a new name is appended to
the ordered section list. -/
theorem header_records_bracket_trimmed_name :
    (∀ (p : Parser) (n : Nat) (cs line : Str) (rest : List Str),
      isHeaderLine (trimSpace line) = true →
      parseFrom p n cs (line :: rest) =
        parseFrom (createSectionIfNotExist p (trimCut bracketCut (trimSpace line)))
          (n + 1) (trimCut bracketCut (trimSpace line)) rest) ∧
    (∀ (p : Parser) (sect : Str), lookupM p.data sect = none →
      (createSectionIfNotExist p sect).GetSectionNames = p.GetSectionNames ++ [sect]) := by
  constructor
  · intro p n cs line rest h
    exact parseFrom_header p n cs line rest h
  · intro p sect h
    simp [createSectionIfNotExist, h, Parser.GetSectionNames]

/-- C6 (witness): the header `[[sec]]` switches the parser to the section
named `sec`, brackets of both shapes stripped from both ends. -/
theorem header_records_bracket_trimmed_name_witness :
    parseFrom NewParser 0 [] ["[[sec]]".data] =
      parseFrom (createSectionIfNotExist NewParser
        (trimCut bracketCut (trimSpace "[[sec]]".data))) 1
        (trimCut bracketCut (trimSpace "[[sec]]".data)) [] ∧
    (createSectionIfNotExist NewParser "sec".data).GetSectionNames =
      NewParser.GetSectionNames ++ ["sec".data] :=
  ⟨header_records_bracket_trimmed_name.1 NewParser 0 [] "[[sec]]".data [] (by decide),
   header_records_bracket_trimmed_name.2 NewParser "sec".data (by decide)⟩

/-- C7: on an assignment line containing `=`, an empty trimmed left side is
reported as the empty-key error; otherwise an empty trimmed right side is
reported as the empty-value error, whose message differs from the
invalid-pair message. -/
theorem key_value_error_order :
    ∀ (p : Parser) (line : Str) (n : Nat) (cs lhs rhs : Str),
      splitFirst '=' line = some (lhs, rhs) →
      (trimSpace lhs = [] → parseKeyValue p line n cs = .error (errEmptyKey n line)) ∧
      (trimSpace lhs ≠ [] → trimSpace rhs = [] →
        parseKeyValue p line n cs = .error (errEmptyValue n line)) ∧
      errEmptyValue n line ≠ errInvalidKV n line := by
  intro p line n cs lhs rhs hsplit
  refine ⟨?_, ?_, ?_⟩
  · intro hk
    exact parseKeyValue_error_empty_key p line n cs lhs rhs hsplit hk
  · intro hk hv
    exact parseKeyValue_error_empty_value p line n cs lhs rhs hsplit hk hv
  · intro hcontra
    have h2 := congrArg List.length hcontra
    have e1 : (": value cannot be empty: ".data).length = 25 := rfl
    have e2 : (": invalid key-value pair: ".data).length = 26 := rfl
    simp only [errEmptyValue, errInvalidKV, List.length_append, e1, e2] at h2
    omega

/-- C7 (witness): the line `keyWithSeparatorButNoValue =` fails with the
empty-value error at its line number, not the invalid-pair error. -/
theorem key_value_error_order_witness :
    parseKeyValue NewParser "keyWithSeparatorButNoValue =".data 1 [] =
      .error (errEmptyValue 1 "keyWithSeparatorButNoValue =".data) ∧
    errEmptyValue 1 "keyWithSeparatorButNoValue =".data ≠
      errInvalidKV 1 "keyWithSeparatorButNoValue =".data :=
  have h := key_value_error_order NewParser "keyWithSeparatorButNoValue =".data 1 []
    "keyWithSeparatorButNoValue ".data "".data (by decide)
  ⟨h.2.1 (by decide) (by decide), h.2.2⟩

/-- C8: a non-blank, non-comment line that is not bracket-delimited and has
no `=` makes the parse fail with the invalid-pair error citing the 1-based
position of the line counting every preceding line, blanks and comments
included, whatever prefix of processable lines comes before it. -/
theorem invalid_pair_cites_absolute_line_number :
    ∀ (pre : List Str) (bad : Str) (rest : List Str) (p : Parser) (n : Nat) (cs : Str),
      (∀ l ∈ pre, lineOk l = true) →
      isSkipLine (trimSpace bad) = false →
      isHeaderLine (trimSpace bad) = false →
      splitFirst '=' (trimSpace bad) = none →
      (parseFrom p n cs (pre ++ bad :: rest)).2 =
        some (errInvalidKV (n + pre.length + 1) (trimSpace bad)) := by
  intro pre
  induction pre with
  | nil =>
    intro bad rest p n cs hok hskip hhead hsplit
    rw [List.nil_append, parseFrom_assign _ _ _ _ _ hskip hhead,
      parseKeyValue_error_no_eq _ _ _ _ hsplit]
    simp
  | cons l pre2 ih =>
    intro bad rest p n cs hok hskip hhead hsplit
    have hl : lineOk l = true := hok l (List.mem_cons_self l pre2)
    have hok2 : ∀ x ∈ pre2, lineOk x = true :=
      fun x hx => hok x (List.mem_cons_of_mem l hx)
    have hlen : n + (l :: pre2).length + 1 = n + 1 + pre2.length + 1 := by
      simp only [List.length_cons]
      omega
    rw [List.cons_append, hlen]
    by_cases hskipl : isSkipLine (trimSpace l) = true
    · rw [parseFrom_skip _ _ _ _ _ hskipl]
      exact ih bad rest p (n + 1) cs hok2 hskip hhead hsplit
    · have hskipl2 : isSkipLine (trimSpace l) = false := by simpa using hskipl
      by_cases hheadl : isHeaderLine (trimSpace l) = true
      · rw [parseFrom_header _ _ _ _ _ hheadl]
        exact ih bad rest _ (n + 1) _ hok2 hskip hhead hsplit
      · have hheadl2 : isHeaderLine (trimSpace l) = false := by simpa using hheadl
        have hao : assignOk (trimSpace l) = true := by
          unfold lineOk at hl
          simpa [hskipl2, hheadl2] using hl
        obtain ⟨lhs, rhs, hsp, hk, hv⟩ := (assignOk_iff (trimSpace l)).mp hao
        rw [parseFrom_assign _ _ _ _ _ hskipl2 hheadl2,
          parseKeyValue_ok p (trimSpace l) (n + 1) cs lhs rhs hsp hk hv]
        exact ih bad rest _ (n + 1) cs hok2 hskip hhead hsplit

/-- C8 (witness): a blank first line followed by the unterminated header
`[section1` fails with exactly the message
`line 2: invalid key-value pair: [section1`. -/
theorem invalid_pair_cites_absolute_line_number_witness :
    (parse NewParser (splitLines "\n[section1".data)).2 =
      some ("line 2: invalid key-value pair: [section1".data) := by
  have h := invalid_pair_cites_absolute_line_number [[]] "[section1".data [] NewParser 0 []
    (by decide) (by decide) (by decide) (by decide)
  exact h.trans (by decide)

/-! ## Section bookkeeping under parsing -/

theorem appendNewAll_nil (acc : List Str) : appendNewAll acc [] = acc := rfl

theorem appendNewAll_cons (acc : List Str) (x : Str) (xs : List Str) :
    appendNewAll acc (x :: xs) = appendNewAll (appendIfNew acc x) xs := rfl

theorem headerTrace_skip (l : Str) (rest : List Str)
    (h : isSkipLine (trimSpace l) = true) :
    headerTrace (l :: rest) = headerTrace rest := by
  simp [headerTrace, h]

theorem headerTrace_header (l : Str) (rest : List Str)
    (h : isHeaderLine (trimSpace l) = true) :
    headerTrace (l :: rest) = trimCut bracketCut (trimSpace l) :: headerTrace rest := by
  simp [headerTrace, isHeader_not_skip _ h, h]

theorem headerTrace_assign (l : Str) (rest : List Str)
    (h1 : isSkipLine (trimSpace l) = false) (h2 : isHeaderLine (trimSpace l) = false)
    (h3 : assignOk (trimSpace l) = true) :
    headerTrace (l :: rest) = headerTrace rest := by
  simp [headerTrace, h1, h2, h3]

theorem headerTrace_bad (l : Str) (rest : List Str)
    (h1 : isSkipLine (trimSpace l) = false) (h2 : isHeaderLine (trimSpace l) = false)
    (h3 : assignOk (trimSpace l) = false) :
    headerTrace (l :: rest) = [] := by
  simp [headerTrace, h1, h2, h3]

theorem parseFrom_inv (lines : List Str) :
    ∀ (p : Parser) (n : Nat) (cs : Str), Inv p → (cs = [] ∨ cs ∈ p.sections) →
      Inv (parseFrom p n cs lines).1 ∧
      (parseFrom p n cs lines).1.sections = appendNewAll p.sections (headerTrace lines) := by
  induction lines with
  | nil => intro p n cs hInv hcs; exact ⟨hInv, rfl⟩
  | cons l rest ih =>
    intro p n cs hInv hcs
    by_cases hskip : isSkipLine (trimSpace l) = true
    · rw [parseFrom_skip _ _ _ _ _ hskip, headerTrace_skip _ _ hskip]
      exact ih p (n + 1) cs hInv hcs
    · have hskip2 : isSkipLine (trimSpace l) = false := by simpa using hskip
      by_cases hhead : isHeaderLine (trimSpace l) = true
      · rw [parseFrom_header _ _ _ _ _ hhead, headerTrace_header _ _ hhead,
          appendNewAll_cons]
        cases hlook : lookupM p.data (trimCut bracketCut (trimSpace l)) with
        | some v =>
          have hpc : createSectionIfNotExist p (trimCut bracketCut (trimSpace l)) = p := by
            simp [createSectionIfNotExist, hlook]
          have hmem : trimCut bracketCut (trimSpace l) ∈ p.sections := by
            rw [hInv.2]
            exact (lookupM_isSome_iff _ _).mp (by simp [hlook])
          have happ : appendIfNew p.sections (trimCut bracketCut (trimSpace l)) =
              p.sections := by
            simp [appendIfNew, hmem]
          rw [hpc, happ]
          exact ih p (n + 1) _ hInv (Or.inr hmem)
        | none =>
          have hnd : trimCut bracketCut (trimSpace l) ∉ p.data.map Prod.fst :=
            (lookupM_eq_none_iff _ _).mp hlook
          have hnotmem : trimCut bracketCut (trimSpace l) ∉ p.sections := by
            rw [hInv.2]; exact hnd
          have hpc : createSectionIfNotExist p (trimCut bracketCut (trimSpace l)) =
              { p with data := insertM p.data (trimCut bracketCut (trimSpace l)) [],
                       sections := p.sections ++ [trimCut bracketCut (trimSpace l)] } := by
            simp [createSectionIfNotExist, hlook]
          have hInv2 : Inv (createSectionIfNotExist p
              (trimCut bracketCut (trimSpace l))) := by
            rw [hpc]
            constructor
            · simp only [List.nodup_append, List.nodup_singleton, true_and,
                List.disjoint_singleton]
              exact ⟨hInv.1, hnotmem⟩
            · show p.sections ++ [trimCut bracketCut (trimSpace l)] =
                (insertM p.data (trimCut bracketCut (trimSpace l)) []).map Prod.fst
              rw [insertM_keys_not_mem _ _ _ hnd]
              have hkeys : List.map Prod.fst p.data = p.sections := (hInv.2).symm
              rw [hkeys]
          have hmem2 : trimCut bracketCut (trimSpace l) ∈
              (createSectionIfNotExist p (trimCut bracketCut (trimSpace l))).sections := by
            rw [hpc]; simp
          have happ : appendIfNew p.sections (trimCut bracketCut (trimSpace l)) =
              p.sections ++ [trimCut bracketCut (trimSpace l)] := by
            simp [appendIfNew, hnotmem]
          rw [happ]
          have h := ih (createSectionIfNotExist p (trimCut bracketCut (trimSpace l)))
            (n + 1) _ hInv2 (Or.inr hmem2)
          simpa [hpc] using h
      · have hhead2 : isHeaderLine (trimSpace l) = false := by simpa using hhead
        by_cases hao : assignOk (trimSpace l) = true
        · obtain ⟨lhs, rhs, hsp, hk, hv⟩ := (assignOk_iff (trimSpace l)).mp hao
          rw [parseFrom_assign _ _ _ _ _ hskip2 hhead2,
            parseKeyValue_ok p (trimSpace l) (n + 1) cs lhs rhs hsp hk hv,
            headerTrace_assign _ _ hskip2 hhead2 hao]
          by_cases hceq : cs = []
          · have hsec : (writeKV p cs (trimSpace lhs)
                (escapeValue (trimSpace rhs))).sections = p.sections := by
              simp [writeKV, hceq]
            have hdat : (writeKV p cs (trimSpace lhs)
                (escapeValue (trimSpace rhs))).data = p.data := by
              simp [writeKV, hceq]
            have hInv2 : Inv (writeKV p cs (trimSpace lhs)
                (escapeValue (trimSpace rhs))) := by
              constructor
              · rw [hsec]; exact hInv.1
              · show _ = dataKeys _
                rw [hsec, dataKeys, hdat]
                exact hInv.2
            have h := ih _ (n + 1) cs hInv2 (Or.inl hceq)
            rwa [hsec] at h
          · have hmem : cs ∈ p.sections := hcs.resolve_left hceq
            have hmemd : cs ∈ p.data.map Prod.fst := by
              rw [hInv.2, dataKeys] at hmem
              exact hmem
            have hsec : (writeKV p cs (trimSpace lhs)
                (escapeValue (trimSpace rhs))).sections = p.sections := by
              simp [writeKV, hceq]
            have hdat : (writeKV p cs (trimSpace lhs)
                (escapeValue (trimSpace rhs))).data.map Prod.fst =
                  p.data.map Prod.fst := by
              simp only [writeKV, if_neg hceq]
              exact insertM_keys_mem _ _ _ hmemd
            have hInv2 : Inv (writeKV p cs (trimSpace lhs)
                (escapeValue (trimSpace rhs))) := by
              constructor
              · rw [hsec]; exact hInv.1
              · show _ = dataKeys _
                rw [hsec, dataKeys, hdat]
                exact hInv.2
            have h := ih _ (n + 1) cs hInv2 (Or.inr (by rw [hsec]; exact hmem))
            rwa [hsec] at h
        · have hao2 : assignOk (trimSpace l) = false := by simpa using hao
          obtain ⟨e, he⟩ := parseKeyValue_isError p (trimSpace l) (n + 1) cs hao2
          rw [parseFrom_assign _ _ _ _ _ hskip2 hhead2, he,
            headerTrace_bad _ _ hskip2 hhead2 hao2]
          exact ⟨hInv, rfl⟩

/-- C4: for documents populated only by parsing — the empty document of
`NewParser` and anything a parse pass produces from a document satisfying
the invariant — `GetSectionNames()` lists the encountered section names in
first-appearance order with no duplicates (`appendNewAll` collects exactly
the first appearances of the header trace), every listed name has an entry
in the `data` mapping, and re-encountering a header for a known section
leaves the document unchanged rather than resetting its keys. -/
theorem parse_sections_nodup_first_appearance :
    Inv NewParser ∧
    (∀ (p : Parser) (lines : List Str), Inv p →
      Inv (parse p lines).1 ∧
      (parse p lines).1.GetSectionNames =
        appendNewAll p.GetSectionNames (headerTrace lines) ∧
      (∀ s ∈ (parse p lines).1.GetSectionNames,
        (lookupM (parse p lines).1.data s).isSome = true)) ∧
    (∀ (p : Parser) (sect : Str), (lookupM p.data sect).isSome = true →
      createSectionIfNotExist p sect = p) := by
  refine ⟨⟨List.nodup_nil, rfl⟩, ?_, ?_⟩
  · intro p lines hInv
    have h := parseFrom_inv lines p 0 [] hInv (Or.inl rfl)
    simp only [parse, Parser.GetSectionNames]
    refine ⟨h.1, h.2, ?_⟩
    intro s hs
    rw [lookupM_isSome_iff]
    have hs2 : s ∈ (parseFrom p 0 [] lines).1.sections := hs
    rw [h.1.2] at hs2
    exact hs2
  · intro p sect h
    rcases hlook : lookupM p.data sect with _ | v
    · rw [hlook] at h; simp at h
    · simp [createSectionIfNotExist, hlook]

/-- C4 (witness): parsing `[a]`, `x=1`, `[a]`, `[b]` from the empty
document yields sections `["a", "b"]` — duplicate-free, in first-appearance
order, each with a `data` entry — and re-creating the existing section `a`
is the identity. -/
theorem parse_sections_nodup_first_appearance_witness :
    (Inv (parse NewParser ["[a]".data, "x=1".data, "[a]".data, "[b]".data]).1 ∧
     (parse NewParser ["[a]".data, "x=1".data, "[a]".data, "[b]".data]).1.GetSectionNames =
       appendNewAll NewParser.GetSectionNames
         (headerTrace ["[a]".data, "x=1".data, "[a]".data, "[b]".data]) ∧
     (∀ s ∈ (parse NewParser
         ["[a]".data, "x=1".data, "[a]".data, "[b]".data]).1.GetSectionNames,
       (lookupM (parse NewParser
         ["[a]".data, "x=1".data, "[a]".data, "[b]".data]).1.data s).isSome = true)) ∧
    createSectionIfNotExist
      ⟨[("a".data, [("x".data, "1".data)])], [], ["a".data]⟩ "a".data =
      ⟨[("a".data, [("x".data, "1".data)])], [], ["a".data]⟩ :=
  ⟨parse_sections_nodup_first_appearance.2.1 NewParser
      ["[a]".data, "x=1".data, "[a]".data, "[b]".data] (by decide),
   parse_sections_nodup_first_appearance.2.2
      ⟨[("a".data, [("x".data, "1".data)])], [], ["a".data]⟩ "a".data (by decide)⟩

/-! ## Sortedness of `sortStrings` and the serializer layout -/

theorem ltStr_asymm : ∀ (a b : Str), ltStr a b = true → ltStr b a = false := by
  intro a
  induction a with
  | nil =>
    intro b h
    cases b with
    | nil => simp [ltStr] at h
    | cons y ys => simp [ltStr]
  | cons x xs ih =>
    intro b h
    cases b with
    | nil => simp [ltStr] at h
    | cons y ys =>
      simp only [ltStr] at h ⊢
      by_cases hxy : x < y
      · have h1 : ¬ y < x := lt_asymm hxy
        simp [hxy, h1]
      · by_cases hyx : y < x
        · simp [hxy, hyx] at h
        · simp only [if_neg hxy, if_neg hyx] at h
          simp only [if_neg hyx, if_neg hxy]
          exact ih ys h

theorem insertSorted_head (x : Str) (l : List Str) :
    (insertSorted x l).head? = some x ∨ (insertSorted x l).head? = l.head? := by
  cases l with
  | nil => left; rfl
  | cons y ys =>
    by_cases h : ltStr x y = true
    · left; simp [insertSorted, h]
    · right; simp [insertSorted, h]

theorem chain'_insertSorted (x : Str) (l : List Str)
    (h : List.Chain' (fun a b => ltStr b a = false) l) :
    List.Chain' (fun a b => ltStr b a = false) (insertSorted x l) := by
  induction l with
  | nil => simp [insertSorted]
  | cons y ys ih =>
    by_cases hxy : ltStr x y = true
    · simp only [insertSorted, if_pos hxy]
      exact List.Chain'.cons (ltStr_asymm x y hxy) h
    · simp only [insertSorted, if_neg hxy]
      rw [List.chain'_cons']
      constructor
      · intro z hz
        rcases insertSorted_head x ys with hh | hh
        · rw [hh] at hz
          simp only [Option.mem_def, Option.some.injEq] at hz
          subst hz
          simpa using hxy
        · rw [hh] at hz
          exact (List.chain'_cons'.mp h).1 z hz
      · exact ih (List.chain'_cons'.mp h).2

theorem insertSorted_perm (x : Str) (l : List Str) :
    (insertSorted x l).Perm (x :: l) := by
  induction l with
  | nil => exact List.Perm.refl _
  | cons y ys ih =>
    by_cases h : ltStr x y = true
    · simp [insertSorted, h]
    · simp only [insertSorted, if_neg h]
      exact (ih.cons y).trans (List.Perm.swap x y ys)

theorem foldl_build {α : Type} (g : Str → α → Str) (f : α → Str)
    (hg : ∀ acc x, g acc x = acc ++ f x) (l : List α) :
    ∀ acc, l.foldl g acc = acc ++ (l.map f).flatten := by
  induction l with
  | nil => intro acc; simp
  | cons x xs ih =>
    intro acc
    rw [List.foldl_cons, hg, ih, List.map_cons, List.flatten_cons, List.append_assoc]

theorem toString_eq_specSerialize (p : Parser) : p.ToString = specSerialize p := by
  have hg : ∀ (acc sectionName : Str),
      (sortStrings (((lookupM p.data sectionName).getD []).map Prod.fst)).foldl
        (fun acc2 key => acc2 ++ key ++ '=' :: (lookupM ((lookupM p.data
          sectionName).getD []) key).getD [] ++ ['\n'])
        (acc ++ '[' :: sectionName ++ [']', '\n']) =
      acc ++ ('[' :: sectionName ++ [']', '\n'] ++
        ((sortStrings (((lookupM p.data sectionName).getD []).map Prod.fst)).map
          (fun key => key ++ '=' :: (lookupM ((lookupM p.data sectionName).getD [])
            key).getD [] ++ ['\n'])).flatten) := by
    intro acc sectionName
    rw [foldl_build
      (fun acc2 key => acc2 ++ key ++ '=' :: (lookupM ((lookupM p.data
        sectionName).getD []) key).getD [] ++ ['\n'])
      (fun key => key ++ '=' :: (lookupM ((lookupM p.data
        sectionName).getD []) key).getD [] ++ ['\n'])
      (fun acc2 key => by simp [List.append_assoc])]
    simp [List.append_assoc]
  simp only [Parser.ToString, specSerialize]
  rw [foldl_build (fun acc kv => acc ++ kv.1 ++ '=' :: kv.2 ++ ['\n']) renderEntry
    (fun acc kv => by simp [renderEntry, List.append_assoc]) p.globalKeys [],
    List.nil_append,
    foldl_build _ _ hg p.sections]

/-- C9: `ToString` renders all global entries first and then, for each
section name of the ordered section list in order, a bracketed header line
followed by that section's entries as `key=value` lines with the keys in
ascending lexicographic order: the builder loops equal the structured
rendering `specSerialize`, and `sortStrings` produces an ordered
rearrangement of the key list. -/
theorem tostring_layout_and_sorted_keys :
    (∀ p : Parser, p.ToString = specSerialize p) ∧
    (∀ l : List Str, List.Chain' (fun a b => ltStr b a = false) (sortStrings l) ∧
      (sortStrings l).Perm l) := by
  constructor
  · exact toString_eq_specSerialize
  · intro l
    induction l with
    | nil => exact ⟨List.chain'_nil, List.Perm.refl _⟩
    | cons x xs ih =>
      constructor
      · exact chain'_insertSorted x _ ih.1
      · exact (insertSorted_perm x (sortStrings xs)).trans (ih.2.cons x)

/-! ## The empty-named section -/

theorem emptySec_preserved (lines : List Str) :
    ∀ (p : Parser) (n : Nat) (cs : Str),
      (lookupM p.data [] = none ∨ lookupM p.data [] = some []) →
      (lookupM (parseFrom p n cs lines).1.data [] = none ∨
       lookupM (parseFrom p n cs lines).1.data [] = some []) := by
  induction lines with
  | nil => intro p n cs h; exact h
  | cons l rest ih =>
    intro p n cs h
    by_cases hskip : isSkipLine (trimSpace l) = true
    · rw [parseFrom_skip _ _ _ _ _ hskip]
      exact ih p (n + 1) cs h
    · have hskip2 : isSkipLine (trimSpace l) = false := by simpa using hskip
      by_cases hhead : isHeaderLine (trimSpace l) = true
      · rw [parseFrom_header _ _ _ _ _ hhead]
        refine ih _ (n + 1) _ ?_
        cases hlook : lookupM p.data (trimCut bracketCut (trimSpace l)) with
        | some v => simpa [createSectionIfNotExist, hlook] using h
        | none =>
          by_cases hsec : trimCut bracketCut (trimSpace l) = []
          · right
            rw [hsec] at hlook
            have hc : (createSectionIfNotExist p
                (trimCut bracketCut (trimSpace l))).data = insertM p.data [] [] := by
              rw [hsec]
              simp [createSectionIfNotExist, hlook]
            rw [hc]
            exact lookupM_insertM_self p.data [] []
          · have hne : ([] : Str) ≠ trimCut bracketCut (trimSpace l) :=
              fun hc => hsec hc.symm
            simpa [createSectionIfNotExist, hlook,
              lookupM_insertM_ne p.data _ [] [] hne] using h
      · have hhead2 : isHeaderLine (trimSpace l) = false := by simpa using hhead
        by_cases hao : assignOk (trimSpace l) = true
        · obtain ⟨lhs, rhs, hsp, hk, hv⟩ := (assignOk_iff (trimSpace l)).mp hao
          rw [parseFrom_assign _ _ _ _ _ hskip2 hhead2,
            parseKeyValue_ok p (trimSpace l) (n + 1) cs lhs rhs hsp hk hv]
          refine ih _ (n + 1) cs ?_
          by_cases hcs : cs = []
          · simpa [writeKV, hcs] using h
          · have hne : ([] : Str) ≠ cs := fun hc => hcs hc.symm
            simpa [writeKV, hcs, lookupM_insertM_ne p.data _ [] _ hne] using h
        · have hao2 : assignOk (trimSpace l) = false := by simpa using hao
          obtain ⟨e, he⟩ := parseKeyValue_isError p (trimSpace l) (n + 1) cs hao2
          rw [parseFrom_assign _ _ _ _ _ hskip2 hhead2, he]
          exact h

/-- C10: a header line whose bracket-stripped name is empty registers an
empty-named section (it enters `sections` and `data`) but also sets the
current section to the empty string — the same sentinel as "no section" —
so every subsequent assignment before the next header is written to the
global keys, never into the empty-named section, whose key map stays
empty across the whole parse. -/
theorem empty_header_registers_but_routes_to_globals :
    (∀ (p : Parser) (n : Nat) (cs line : Str) (rest : List Str),
      isHeaderLine (trimSpace line) = true →
      trimCut bracketCut (trimSpace line) = [] →
      parseFrom p n cs (line :: rest) =
        parseFrom (createSectionIfNotExist p []) (n + 1) [] rest) ∧
    (∀ p : Parser, lookupM p.data [] = none →
      [] ∈ (createSectionIfNotExist p []).sections ∧
      lookupM (createSectionIfNotExist p []).data [] = some []) ∧
    (∀ (p : Parser) (line : Str) (n : Nat) (p2 : Parser),
      parseKeyValue p line n [] = .ok p2 →
      p2.data = p.data ∧ p2.sections = p.sections ∧
      ∃ key value, p2.globalKeys = insertM p.globalKeys key value) ∧
    (∀ (lines : List Str) (p : Parser) (n : Nat) (cs : Str),
      (lookupM p.data [] = none ∨ lookupM p.data [] = some []) →
      (lookupM (parseFrom p n cs lines).1.data [] = none ∨
       lookupM (parseFrom p n cs lines).1.data [] = some [])) := by
  refine ⟨?_, ?_, ?_, emptySec_preserved⟩
  · intro p n cs line rest hh hname
    rw [parseFrom_header _ _ _ _ _ hh, hname]
  · intro p h
    constructor
    · simp [createSectionIfNotExist, h]
    · have hc : (createSectionIfNotExist p []).data = insertM p.data [] [] := by
        simp [createSectionIfNotExist, h]
      rw [hc]
      exact lookupM_insertM_self p.data [] []
  · intro p line n p2 h
    cases hm : splitFirst '=' line with
    | none =>
      rw [parseKeyValue_error_no_eq p line n [] hm] at h
      simp at h
    | some pr =>
      obtain ⟨lhs, rhs⟩ := pr
      by_cases hk : trimSpace lhs = []
      · rw [parseKeyValue_error_empty_key p line n [] lhs rhs hm hk] at h
        simp at h
      · by_cases hv : trimSpace rhs = []
        · rw [parseKeyValue_error_empty_value p line n [] lhs rhs hm hk hv] at h
          simp at h
        · rw [parseKeyValue_ok p line n [] lhs rhs hm hk hv] at h
          have h2 : writeKV p [] (trimSpace lhs) (escapeValue (trimSpace rhs)) = p2 := by
            injection h
          subst h2
          refine ⟨?_, ?_, trimSpace lhs, escapeValue (trimSpace rhs), ?_⟩ <;>
            simp [writeKV]

/-- C10 (witness): on the input `[]` then `a=1`, the empty-named section is
registered with an empty key map, the current section becomes the empty
string, and the assignment lands in the global keys. -/
theorem empty_header_registers_witness :
    parseFrom NewParser 0 [] ["[]".data, "a=1".data] =
      parseFrom (createSectionIfNotExist NewParser []) 1 [] ["a=1".data] ∧
    ([] ∈ (createSectionIfNotExist NewParser []).sections ∧
      lookupM (createSectionIfNotExist NewParser []).data [] = some []) ∧
    ((⟨[([], [])], [("a".data, "1".data)], [[]]⟩ : Parser).data =
        (createSectionIfNotExist NewParser []).data ∧
      (⟨[([], [])], [("a".data, "1".data)], [[]]⟩ : Parser).sections =
        (createSectionIfNotExist NewParser []).sections ∧
      ∃ key value, (⟨[([], [])], [("a".data, "1".data)], [[]]⟩ : Parser).globalKeys =
        insertM (createSectionIfNotExist NewParser []).globalKeys key value) ∧
    (lookupM (parseFrom NewParser 0 [] ["[]".data, "a=1".data]).1.data [] = none ∨
      lookupM (parseFrom NewParser 0 [] ["[]".data, "a=1".data]).1.data [] = some []) :=
  ⟨empty_header_registers_but_routes_to_globals.1 NewParser 0 [] "[]".data ["a=1".data]
      (by decide) (by decide),
   empty_header_registers_but_routes_to_globals.2.1 NewParser (by decide),
   empty_header_registers_but_routes_to_globals.2.2.1 (createSectionIfNotExist NewParser [])
      "a=1".data 2 ⟨[([], [])], [("a".data, "1".data)], [[]]⟩ (by rfl),
   empty_header_registers_but_routes_to_globals.2.2.2 ["[]".data, "a=1".data]
      NewParser 0 [] (Or.inl (by decide))⟩

end Ini
